import Mathlib

/-!
Verification of the step-51 HDG assembly engine (deal.II, examples/step-51/step-51.cc).

The per-element assembly, static condensation, trace reconstruction and
post-processing of the tutorial program are shallowly embedded over exact
rational arithmetic.  A mesh element is represented by the data the code
reads at its quadrature points (basis values, weights, normals, convection
values, boundary flags); the imperative accumulation loops of
`assemble_system_one_cell` become folds over those quadrature-point lists,
and `FullMatrix::gauss_jordan` becomes the exact dense inverse.
-/

namespace Step51

/-- Scalar product of two `dim`-vectors, as used for `Tensor<1,dim>`
contractions such as `q_phi[i] * q_phi[j]` or `convection * normal`. -/
def dot {dim : ℕ} (a b : Fin dim → ℚ) : ℚ := ∑ i, a i * b i

/-- Mirrors line 652: `const double tau_stab_diffusion = 5.;`
(the stabilization constant scaling the unit diffusion coefficient). -/
def tau_stab_diffusion : ℚ := 5

/-- Mirrors lines 711-712: the per-face-quadrature-point stabilization
parameter `tau_stab = tau_stab_diffusion + std::abs(convection * normal)`. -/
def tauStab {dim : ℕ} (convection normal : Fin dim → ℚ) : ℚ :=
  tau_stab_diffusion + |dot convection normal|

/-- Mirrors line 759: the hardcoded boundary indicator value `1` that selects
the Neumann branch in `assemble_system_one_cell`. -/
def neumannMarker : ℕ := 1

/-- Data the element-interior quadrature loop (lines 668-696) reads at one
quadrature point: the `JxW` weight, the right-hand-side (source) value, the
convection vector, and per local basis function the flux value `q_phi`, the
flux divergence `q_phi_div`, the primal value `u_phi` and primal gradient
`u_phi_grad`. -/
structure VolPoint (dim nL : ℕ) where
  JxW : ℚ
  rhs_value : ℚ
  convection : Fin dim → ℚ
  q_phi : Fin nL → Fin dim → ℚ
  q_phi_div : Fin nL → ℚ
  u_phi : Fin nL → ℚ
  u_phi_grad : Fin nL → Fin dim → ℚ

/-- Data the face quadrature loop (lines 705-789) reads at one face
quadrature point: weight, outward normal, convection value, the face
restrictions of the local flux/primal basis, the skeleton (trace) basis
values `tr_phi`, and the exact-solution value used as Neumann data. -/
structure FacePoint (dim nL nF : ℕ) where
  JxW : ℚ
  normal : Fin dim → ℚ
  convection : Fin dim → ℚ
  q_phi : Fin nL → Fin dim → ℚ
  u_phi : Fin nL → ℚ
  tr_phi : Fin nF → ℚ
  neumann_value : ℚ

/-- One face of an element: which local / skeleton basis functions have
support on it (`fe_local_support_on_face` / `fe_support_on_face`), the
boundary flag and boundary indicator of the face, and its quadrature
points. -/
structure Face (dim nL nF : ℕ) where
  suppL : Fin nL → Bool
  suppF : Fin nF → Bool
  at_boundary : Bool
  boundary_indicator : ℕ
  points : List (FacePoint dim nL nF)

/-- One mesh element, given by its interior quadrature points and its
faces. -/
structure Cell (dim nL nF : ℕ) where
  volPoints : List (VolPoint dim nL)
  faces : List (Face dim nL nF)

/-- The mutable local blocks of `ScratchData` (lines 415-422): `ll_matrix`,
`lf_matrix`, `fl_matrix`, `ff_matrix`, `l_rhs`, `f_rhs`. -/
structure LocalScratch (nL nF : ℕ) where
  ll_matrix : Matrix (Fin nL) (Fin nL) ℚ
  lf_matrix : Matrix (Fin nL) (Fin nF) ℚ
  fl_matrix : Matrix (Fin nF) (Fin nL) ℚ
  ff_matrix : Matrix (Fin nF) (Fin nF) ℚ
  l_rhs : Fin nL → ℚ
  f_rhs : Fin nF → ℚ

/-- An all-zero scratch state. -/
def zeroScratch (nL nF : ℕ) : LocalScratch nL nF :=
  { ll_matrix := Matrix.of fun _ _ => 0
    lf_matrix := Matrix.of fun _ _ => 0
    fl_matrix := Matrix.of fun _ _ => 0
    ff_matrix := Matrix.of fun _ _ => 0
    l_rhs := fun _ => 0
    f_rhs := fun _ => 0 }

/-- Mirrors lines 657-665: `ll_matrix` and `l_rhs` are zeroed on every pass;
`lf_matrix`, `fl_matrix`, `ff_matrix` and `f_rhs` only when
`trace_reconstruct` is false. -/
def resetScratch {nL nF : ℕ} (trace_reconstruct : Bool) (s : LocalScratch nL nF) :
    LocalScratch nL nF :=
  let s' := { s with ll_matrix := Matrix.of fun _ _ => 0, l_rhs := fun _ => 0 }
  if trace_reconstruct then s'
  else
    { s' with
      lf_matrix := Matrix.of fun _ _ => 0
      fl_matrix := Matrix.of fun _ _ => 0
      ff_matrix := Matrix.of fun _ _ => 0
      f_rhs := fun _ => 0 }

/-- Mirrors the interior quadrature loop body (lines 668-696): one quadrature
point adds its contribution to `ll_matrix` and `l_rhs`. -/
def volumeStep {dim nL nF : ℕ} (s : LocalScratch nL nF) (p : VolPoint dim nL) :
    LocalScratch nL nF :=
  { s with
    ll_matrix := Matrix.of fun i j =>
      s.ll_matrix i j +
        (dot (p.q_phi i) (p.q_phi j)
          - p.q_phi_div i * p.u_phi j
          + p.u_phi i * p.q_phi_div j
          - dot (p.u_phi_grad i) p.convection * p.u_phi j) * p.JxW
    l_rhs := fun i => s.l_rhs i + p.u_phi i * p.rhs_value * p.JxW }

/-- Mirrors line 703, `fe_face_values.get_function_values(solution,
trace_values)`: the trace field evaluated at a face quadrature point from the
global skeleton coefficients restricted to this cell. -/
def traceValues {dim nL nF : ℕ} (lam : Fin nF → ℚ) (p : FacePoint dim nL nF) : ℚ :=
  ∑ j, lam j * p.tr_phi j

/-- Mirrors the face quadrature loop body (lines 705-788) for one face
quadrature point.  When `trace_reconstruct` is false it accumulates into
`lf_matrix` (`+=`), `fl_matrix` (`-=`), `ff_matrix` (`+=`) and, on a boundary
face with indicator `neumannMarker`, into `f_rhs` (`-=`); on both passes it
adds the penalty term to `ll_matrix`; when `trace_reconstruct` is true it
folds the trace values into `l_rhs` (`-=`).  Loops over the support lists are
rendered as guards: a basis function outside the face support list
contributes zero. -/
def faceStep {dim nL nF : ℕ} (trace_reconstruct : Bool) (lam : Fin nF → ℚ)
    (f : Face dim nL nF) (s : LocalScratch nL nF) (p : FacePoint dim nL nF) :
    LocalScratch nL nF :=
  let tau_stab := tauStab p.convection p.normal
  let s1 :=
    if trace_reconstruct then s
    else
      { s with
        lf_matrix := Matrix.of fun ii jj =>
          s.lf_matrix ii jj +
            if f.suppL ii && f.suppF jj then
              (dot (p.q_phi ii) p.normal
                + (dot p.convection p.normal - tau_stab) * p.u_phi ii)
                * p.tr_phi jj * p.JxW
            else 0
        fl_matrix := Matrix.of fun jj ii =>
          s.fl_matrix jj ii -
            if f.suppL ii && f.suppF jj then
              (dot (p.q_phi ii) p.normal + tau_stab * p.u_phi ii)
                * p.tr_phi jj * p.JxW
            else 0
        ff_matrix := Matrix.of fun ii jj =>
          s.ff_matrix ii jj +
            if f.suppF ii && f.suppF jj then
              (dot p.convection p.normal - tau_stab)
                * p.tr_phi ii * p.tr_phi jj * p.JxW
            else 0
        f_rhs := fun ii =>
          s.f_rhs ii -
            if (f.at_boundary && (f.boundary_indicator == neumannMarker))
                && f.suppF ii then
              p.tr_phi ii * p.neumann_value * p.JxW
            else 0 }
  let s2 :=
    { s1 with
      ll_matrix := Matrix.of fun ii jj =>
        s1.ll_matrix ii jj +
          if f.suppL ii && f.suppL jj then
            tau_stab * p.u_phi ii * p.u_phi jj * p.JxW
          else 0 }
  if trace_reconstruct then
    { s2 with
      l_rhs := fun ii =>
        s2.l_rhs ii -
          if f.suppL ii then
            (dot (p.q_phi ii) p.normal
              + p.u_phi ii * (dot p.convection p.normal - tau_stab))
              * traceValues lam p * p.JxW
          else 0 }
  else s2

/-- The inner quadrature loop over one face (lines 705-789). -/
def faceLoop {dim nL nF : ℕ} (trace_reconstruct : Bool) (lam : Fin nF → ℚ)
    (s : LocalScratch nL nF) (f : Face dim nL nF) : LocalScratch nL nF :=
  f.points.foldl (faceStep trace_reconstruct lam f) s

/-- The interior quadrature loop of `assemble_system_one_cell`
(lines 668-696). -/
def volumePhase {dim nL nF : ℕ} (c : Cell dim nL nF) (s : LocalScratch nL nF) :
    LocalScratch nL nF :=
  c.volPoints.foldl volumeStep s

/-- The loop over the faces of the element (lines 698-790). -/
def facePhase {dim nL nF : ℕ} (trace_reconstruct : Bool) (lam : Fin nF → ℚ)
    (c : Cell dim nL nF) (s : LocalScratch nL nF) : LocalScratch nL nF :=
  c.faces.foldl (faceLoop trace_reconstruct lam) s

/-- The accumulation part of `assemble_system_one_cell` (lines 657-790):
reset the scratch blocks, run the interior quadrature loop, then the face
loops.  `lam` is the global skeleton solution restricted to this cell (read
only on the trace-reconstruction pass). -/
def assembleLoops {dim nL nF : ℕ} (trace_reconstruct : Bool) (lam : Fin nF → ℚ)
    (c : Cell dim nL nF) (s0 : LocalScratch nL nF) : LocalScratch nL nF :=
  facePhase trace_reconstruct lam c (volumePhase c (resetScratch trace_reconstruct s0))

/-- Exact dense matrix inverse, the model of `FullMatrix::gauss_jordan`
(line 792): over exact arithmetic Gauss-Jordan elimination with pivoting
produces the inverse, here written through the adjugate so that it is
executable. -/
def matInv {n : ℕ} (A : Matrix (Fin n) (Fin n) ℚ) : Matrix (Fin n) (Fin n) ℚ :=
  (A.det)⁻¹ • A.adjugate

/-- What `copy_local_to_global` receives on the pre-solve pass: the
condensed cell matrix and cell vector (`task_data.cell_matrix`,
`task_data.cell_vector`). -/
structure CondensedOutput (nF : ℕ) where
  cell_matrix : Matrix (Fin nF) (Fin nF) ℚ
  cell_vector : Fin nF → ℚ

/-- Mirrors lines 792-801 (the `trace_reconstruct == false` branch):
`ll_matrix.gauss_jordan()`, `fl_matrix.mmult(tmp_matrix, ll_matrix)`,
`tmp_matrix.vmult_add(f_rhs, l_rhs)`,
`tmp_matrix.mmult(ff_matrix, lf_matrix, true)`; the resulting `ff_matrix`
and `f_rhs` are handed to global assembly. -/
def condenseScratch {nL nF : ℕ} (s : LocalScratch nL nF) : CondensedOutput nF :=
  let ll_inv := matInv s.ll_matrix
  let tmp_matrix := s.fl_matrix * ll_inv
  { cell_matrix := s.ff_matrix + tmp_matrix * s.lf_matrix
    cell_vector := fun i => s.f_rhs i + Matrix.mulVec tmp_matrix s.l_rhs i }

/-- Mirrors lines 792 and 802-806 (the `trace_reconstruct == true` branch):
`ll_matrix.gauss_jordan()` followed by `ll_matrix.vmult(tmp_rhs, l_rhs)`;
`tmp_rhs` is written into the interior solution at this cell's local DOFs. -/
def reconstructScratch {nL nF : ℕ} (s : LocalScratch nL nF) : Fin nL → ℚ :=
  Matrix.mulVec (matInv s.ll_matrix) s.l_rhs

/-- The full pre-solve pass of `assemble_system_one_cell` on one element:
assembly loops followed by static condensation. -/
def assembleOneCellCondense {dim nL nF : ℕ} (lam : Fin nF → ℚ)
    (c : Cell dim nL nF) (s0 : LocalScratch nL nF) : CondensedOutput nF :=
  condenseScratch (assembleLoops false lam c s0)

/-- The full trace-reconstruction pass of `assemble_system_one_cell` on one
element: assembly loops (reading the solved traces `lam`) followed by the
local solve `u_local = LL⁻¹ · l_rhs`. -/
def assembleOneCellReconstruct {dim nL nF : ℕ} (lam : Fin nF → ℚ)
    (c : Cell dim nL nF) (s0 : LocalScratch nL nF) : Fin nL → ℚ :=
  reconstructScratch (assembleLoops true lam c s0)

/-- Follows the spec's words (the reconstruction round-trip reference of
spec §8, stated for comparison with the code's reconstruction pass): the
interior unknowns obtained by directly solving the uncondensed local system
`LL u + LF λ = l_rhs` with the trace values `λ` substituted as boundary
data, using the exact inverse of `LL`; `LL`, `LF` and `l_rhs` are the blocks
populated by the pre-solve assembly pass on the same element. -/
def specDirectSolve {dim nL nF : ℕ} (c : Cell dim nL nF) (lam : Fin nF → ℚ) :
    Fin nL → ℚ :=
  let s := assembleLoops false (fun _ => 0) c (zeroScratch nL nF)
  Matrix.mulVec (matInv s.ll_matrix)
    (fun i => s.l_rhs i - Matrix.mulVec s.lf_matrix lam i)

/-- The global skeleton matrix and right-hand side seen by
`copy_local_to_global` (indexed by global DOF numbers). -/
structure GlobalSystem where
  matrix : ℕ → ℕ → ℚ
  rhs : ℕ → ℚ

/-- Mirrors `PerTaskData` (lines 384-403). -/
structure PerTaskData (nF : ℕ) where
  cell_matrix : Matrix (Fin nF) (Fin nF) ℚ
  cell_vector : Fin nF → ℚ
  dof_indices : Fin nF → ℕ
  trace_reconstruct : Bool

/-- Mirrors `copy_local_to_global` (lines 546-554): only when
`trace_reconstruct == false` is the external
`ConstraintMatrix::distribute_local_to_global` primitive (here an abstract
parameter `distribute`) invoked on the global system. -/
def copyLocalToGlobal {nF : ℕ}
    (distribute : PerTaskData nF → GlobalSystem → GlobalSystem)
    (data : PerTaskData nF) (g : GlobalSystem) : GlobalSystem :=
  if data.trace_reconstruct = false then distribute data g else g

/-- Mirrors line 578, `boundary_functions[0] = &solution_function;`: the list
of boundary markers for which `setup_system` registers Dirichlet boundary
data before calling `VectorTools::project_boundary_values`. -/
def dirichletMarkers : List ℕ := [0]

/-- Modelled from the spec: the projection primitive
(`VectorTools::project_boundary_values`, deal.II library code not under
`src/`) together with the constraint collaborator of spec §4.3 "strongly
enforces Dirichlet boundary values on trace DOFs via projection of the
boundary data function onto the skeleton space", where the boundary data
functions are "keyed by marker" (§4.1); a face marker therefore receives
Dirichlet treatment precisely when it is a key of the map built in
`setup_system`, i.e. when it is in `dirichletMarkers`. -/
def dirichletTreated (marker : ℕ) : Bool := dirichletMarkers.contains marker

/-- Data the post-processing quadrature loop (lines 889-925) reads at one
quadrature point of the recovery space: weight, recovery basis values and
gradients, and the values `u_values[q]` / `u_gradients[q]` of the interior
primal field and of the reconstructed gradient (flux) field obtained from
`solution_local`. -/
structure PostPoint (dim nPost : ℕ) where
  JxW : ℚ
  shape_value : Fin nPost → ℚ
  shape_grad : Fin nPost → Fin dim → ℚ
  u_value : ℚ
  u_gradient : Fin dim → ℚ

/-- Mirrors the assembly of `cell_matrix` in `postprocess` (lines 896-919):
the loop starting at `i = 1` assigns row `i` of the gradient-matching
system, after which the separate loop at lines 913-919 assigns row `0` the
recovery-space mass-matrix row. -/
def postCellMatrix {dim nPost : ℕ} (pts : List (PostPoint dim nPost)) :
    Matrix (Fin nPost) (Fin nPost) ℚ :=
  Matrix.of fun i j =>
    if (i : ℕ) = 0 then (pts.map fun p => p.shape_value j * p.JxW).sum
    else (pts.map fun p => dot (p.shape_grad i) (p.shape_grad j) * p.JxW).sum

/-- Mirrors the assembly of `cell_rhs` in `postprocess` (lines 906-925):
entry `i > 0` accumulates `-= shape_grad(i,q) * u_gradients[q] * JxW`, and
entry `0` accumulates `+= u_values[q] * JxW`. -/
def postCellRhs {dim nPost : ℕ} (pts : List (PostPoint dim nPost)) :
    Fin nPost → ℚ :=
  fun i =>
    if (i : ℕ) = 0 then (pts.map fun p => p.u_value * p.JxW).sum
    else -((pts.map fun p => dot (p.shape_grad i) p.u_gradient * p.JxW).sum)

/-- Mirrors lines 927-928: `cell_matrix.gauss_jordan()` followed by
`cell_matrix.vmult(cell_sol, cell_rhs)`; the result is written into the
recovery vector at this element's DOFs. -/
def postCellSol {dim nPost : ℕ} (pts : List (PostPoint dim nPost)) :
    Fin nPost → ℚ :=
  Matrix.mulVec (matInv (postCellMatrix pts)) (postCellRhs pts)

/-- Mirrors `ConvectionVelocity<dim>::value` (lines 139-162): the switch over
the spatial dimension; the `default` branch is
`Assert(false, ExcNotImplemented())`, modelled as an error value. -/
def convectionVelocityValue {dim : ℕ} (p : Fin dim → ℚ) :
    Except String (Fin dim → ℚ) :=
  if h1 : dim = 1 then .ok fun _ => 1
  else if h2 : dim = 2 then
    .ok fun i => if (i : ℕ) = 0 then p ⟨1, by omega⟩ else -p ⟨0, by omega⟩
  else if h3 : dim = 3 then
    .ok fun i =>
      if (i : ℕ) = 0 then p ⟨1, by omega⟩
      else if (i : ℕ) = 1 then -p ⟨0, by omega⟩
      else 1
  else .error "ExcNotImplemented"

/-- An interior quadrature point before the convection velocity has been
evaluated at it (lines 672-673 call `convection_velocity.value` at the
quadrature point during the assembly loop). -/
structure RawVolPoint (dim nL : ℕ) where
  quadrature_point : Fin dim → ℚ
  JxW : ℚ
  rhs_value : ℚ
  q_phi : Fin nL → Fin dim → ℚ
  q_phi_div : Fin nL → ℚ
  u_phi : Fin nL → ℚ
  u_phi_grad : Fin nL → Fin dim → ℚ

/-- Pairs a raw quadrature point with an evaluated convection vector. -/
def RawVolPoint.withConvection {dim nL : ℕ} (p : RawVolPoint dim nL)
    (conv : Fin dim → ℚ) : VolPoint dim nL :=
  { JxW := p.JxW
    rhs_value := p.rhs_value
    convection := conv
    q_phi := p.q_phi
    q_phi_div := p.q_phi_div
    u_phi := p.u_phi
    u_phi_grad := p.u_phi_grad }

/-- One step of the interior quadrature loop in which the convection
velocity is computed by calling `ConvectionVelocity::value` (line 673);
the assertion in the callee aborts the step. -/
def volumeStepConv {dim nL nF : ℕ} (s : LocalScratch nL nF)
    (p : RawVolPoint dim nL) : Except String (LocalScratch nL nF) :=
  match convectionVelocityValue p.quadrature_point with
  | .error e => .error e
  | .ok conv => .ok (volumeStep s (p.withConvection conv))

/-- The interior quadrature loop of one cell with the convection velocity
evaluated during the loop, after the per-cell reset (lines 657-696). -/
def assembleCellVolumeConv {dim nL nF : ℕ} (pts : List (RawVolPoint dim nL))
    (s0 : LocalScratch nL nF) : Except String (LocalScratch nL nF) :=
  pts.foldlM volumeStepConv (resetScratch false s0)

/-- Modelled from the spec: `assemble_system` (lines 596-629) hands the
one-cell worker to `WorkStream::run` over all active cells;
`WorkStream::run` is deal.II library code not under `src/`, and per spec §2
and §5 the driver simply repeats the per-element work for every active
element, with no check preceding the loop.  A cell here is its list of
interior quadrature points. -/
def assembleSystemConv {dim nL nF : ℕ}
    (cells : List (List (RawVolPoint dim nL)))
    (s0 : LocalScratch nL nF) : Except String (LocalScratch nL nF) :=
  cells.foldlM (fun s c => assembleCellVolumeConv c s) s0

/-- One active cell as seen by the solve/reconstruct cycle: its quadrature
data and the global skeleton DOF indices of its trace unknowns. -/
structure SolveCell (dim nL nF N : ℕ) where
  cell : Cell dim nL nF
  dof_indices : Fin nF → Fin N

/-- Mirrors `assemble_system(true)` as called from `solve` (line 829): the
trace-reconstruction pass reads, per cell, only the solved trace values at
that cell's skeleton DOFs, and produces the per-cell interior solution
values written to `solution_local` (`set_dof_values`, line 805). -/
def reconstructPass {dim nL nF N : ℕ} (cells : List (SolveCell dim nL nF N))
    (trace : Fin N → ℚ) : List (Fin nL → ℚ) :=
  cells.map fun sc =>
    assembleOneCellReconstruct (fun j => trace (sc.dof_indices j)) sc.cell
      (zeroScratch nL nF)

/-- The state owned by `Step51` that `solve` (lines 811-830) touches: the
global skeleton matrix (with its row count), the sparsity pattern sizes, the
skeleton solution and right-hand side, and the interior solution. -/
structure SolveState (N nL : ℕ) where
  matrix_rows : ℕ
  matrix : ℕ → ℕ → ℚ
  sparsity_rows : ℕ
  sparsity_cols : ℕ
  solution : Fin N → ℚ
  system_rhs : Fin N → ℚ
  solution_local : List (Fin nL → ℚ)

/-- Mirrors `solve` (lines 811-830) statement by statement:
`solver.solve(system_matrix, solution, system_rhs, ...)` (the external GMRES
solver `gmres`), then `system_matrix.clear()`, then
`sparsity_pattern.reinit(0,0,0,1)`, then `constraints.distribute(solution)`
(the external primitive `distribute`), then `assemble_system(true)`. -/
def solveStep {dim nL nF N : ℕ}
    (gmres : (ℕ → ℕ → ℚ) → (Fin N → ℚ) → Fin N → ℚ)
    (distribute : (Fin N → ℚ) → Fin N → ℚ)
    (cells : List (SolveCell dim nL nF N))
    (st : SolveState N nL) : SolveState N nL :=
  let st1 := { st with solution := gmres st.matrix st.system_rhs }
  let st2 := { st1 with matrix_rows := 0, matrix := fun _ _ => 0 }
  let st3 := { st2 with sparsity_rows := 0, sparsity_cols := 0 }
  let st4 := { st3 with solution := distribute st3.solution }
  { st4 with solution_local := reconstructPass cells st4.solution }

/-! ### Concrete synthetic elements used as witnesses and counterexamples -/

/-- A synthetic interior quadrature point (one local DOF, one space
dimension): unit flux basis value, vanishing primal value. -/
def c1VolPoint : VolPoint 1 1 :=
  { JxW := 1
    rhs_value := 0
    convection := fun _ => 0
    q_phi := fun _ _ => 1
    q_phi_div := fun _ => 0
    u_phi := fun _ => 0
    u_phi_grad := fun _ _ => 0 }

/-- A synthetic face quadrature point with unit flux and trace basis
values. -/
def c1FacePoint : FacePoint 1 1 1 :=
  { JxW := 1
    normal := fun _ => 1
    convection := fun _ => 0
    q_phi := fun _ _ => 1
    u_phi := fun _ => 0
    tr_phi := fun _ => 1
    neumann_value := 0 }

/-- An interior face whose basis functions all have support on it. -/
def c1Face : Face 1 1 1 :=
  { suppL := fun _ => true
    suppF := fun _ => true
    at_boundary := false
    boundary_indicator := 0
    points := [c1FacePoint] }

/-- A synthetic element with one interior and one face quadrature point; its
populated blocks are `LL = (1)`, `LF = (1)`, `FL = (-1)`, `FF = (-5)`. -/
def c1Cell : Cell 1 1 1 :=
  { volPoints := [c1VolPoint], faces := [c1Face] }

/-- A synthetic interior quadrature point with unit flux and primal basis
values and unit source. -/
def c2VolPoint : VolPoint 1 1 :=
  { JxW := 1
    rhs_value := 1
    convection := fun _ => 0
    q_phi := fun _ _ => 1
    q_phi_div := fun _ => 0
    u_phi := fun _ => 1
    u_phi_grad := fun _ _ => 0 }

/-- A synthetic face quadrature point with unit flux, primal and trace basis
values. -/
def c2FacePoint : FacePoint 1 1 1 :=
  { JxW := 1
    normal := fun _ => 1
    convection := fun _ => 0
    q_phi := fun _ _ => 1
    u_phi := fun _ => 1
    tr_phi := fun _ => 1
    neumann_value := 0 }

/-- An interior face for the reconstruction round-trip witness. -/
def c2Face : Face 1 1 1 :=
  { suppL := fun _ => true
    suppF := fun _ => true
    at_boundary := false
    boundary_indicator := 0
    points := [c2FacePoint] }

/-- A synthetic element for the reconstruction round-trip witness; its
populated blocks are `LL = (6)`, `LF = (-4)`, `l_rhs = (1)`. -/
def c2Cell : Cell 1 1 1 :=
  { volPoints := [c2VolPoint], faces := [c2Face] }

/-- A concrete trace vector for the reconstruction round-trip witness. -/
def c2Lam : Fin 1 → ℚ := fun _ => 2

/-- Synthetic post-processing quadrature data over a two-dimensional
recovery space (basis `{φ0, φ1}` with `φ0 = 1`, `φ1` of unit gradient) at a
single quadrature point. -/
def c5Points : List (PostPoint 1 2) :=
  [{ JxW := 1
     shape_value := fun j => if j = 0 then 1 else 0
     shape_grad := fun j _ => if j = 0 then 0 else 1
     u_value := 2
     u_gradient := fun _ => 3 }]

/-- Synthetic post-processing quadrature data over a one-dimensional
recovery space, used for the conservation witness. -/
def c6Points : List (PostPoint 1 1) :=
  [{ JxW := 1
     shape_value := fun _ => 1
     shape_grad := fun _ _ => 0
     u_value := 7
     u_gradient := fun _ => 0 }]

/-- A face quadrature point carrying nonzero trace data and Neumann data. -/
def c8FacePoint : FacePoint 1 1 1 :=
  { JxW := 1
    normal := fun _ => 1
    convection := fun _ => 0
    q_phi := fun _ _ => 0
    u_phi := fun _ => 0
    tr_phi := fun _ => 1
    neumann_value := 1 }

/-- A boundary face carrying the boundary marker `2`, which is neither the
hardcoded Neumann marker `1` nor the registered Dirichlet marker `0`. -/
def c8Face : Face 1 1 1 :=
  { suppL := fun _ => true
    suppF := fun _ => true
    at_boundary := true
    boundary_indicator := 2
    points := [c8FacePoint] }

/-- A synthetic element whose single face is a boundary face with marker
`2`. -/
def c8Cell : Cell 1 1 1 :=
  { volPoints := [], faces := [c8Face] }

/-- A raw interior quadrature point in spatial dimension 4 (an unsupported
dimension for `ConvectionVelocity::value`). -/
def c9Point : RawVolPoint 4 1 :=
  { quadrature_point := fun _ => 0
    JxW := 1
    rhs_value := 0
    q_phi := fun _ _ => 0
    q_phi_div := fun _ => 0
    u_phi := fun _ => 0
    u_phi_grad := fun _ _ => 0 }

/-! ### Generic lemmas about accumulation folds -/

theorem foldl_comp_add {α σ : Type*} (step : σ → α → σ) (comp : σ → ℚ) (g : α → ℚ)
    (h : ∀ s x, comp (step s x) = comp s + g x) (l : List α) (s : σ) :
    comp (l.foldl step s) = comp s + (l.map g).sum := by
  induction l generalizing s with
  | nil => simp
  | cons x xs ih => rw [List.foldl_cons, ih, h, List.map_cons, List.sum_cons, add_assoc]

theorem foldl_comp_frame {α σ : Type*} {β : Type*} (step : σ → α → σ) (comp : σ → β)
    (h : ∀ s x, comp (step s x) = comp s) (l : List α) (s : σ) :
    comp (l.foldl step s) = comp s := by
  induction l generalizing s with
  | nil => rfl
  | cons x xs ih => rw [List.foldl_cons, ih, h]

theorem foldl_comp_sub {α σ : Type*} (step : σ → α → σ) (comp : σ → ℚ) (g : α → ℚ)
    (h : ∀ s x, comp (step s x) = comp s - g x) (l : List α) (s : σ) :
    comp (l.foldl step s) = comp s - (l.map g).sum := by
  induction l generalizing s with
  | nil => simp
  | cons x xs ih => rw [List.foldl_cons, ih, h, List.map_cons, List.sum_cons, sub_sub]

theorem list_sum_map_neg {α : Type*} (l : List α) (g : α → ℚ) :
    (l.map fun a => -(g a)).sum = -((l.map g).sum) := by
  induction l with
  | nil => simp
  | cons a t ih =>
    simp [ih]
    ring

/-! ### Closed forms for the interior quadrature loop -/

theorem volumePhase_ll {dim nL nF : ℕ} (c : Cell dim nL nF) (s : LocalScratch nL nF)
    (i j : Fin nL) :
    (volumePhase c s).ll_matrix i j = s.ll_matrix i j +
      (c.volPoints.map fun p =>
        (dot (p.q_phi i) (p.q_phi j) - p.q_phi_div i * p.u_phi j
          + p.u_phi i * p.q_phi_div j
          - dot (p.u_phi_grad i) p.convection * p.u_phi j) * p.JxW).sum :=
  foldl_comp_add volumeStep (fun s => s.ll_matrix i j) _
    (fun _ _ => rfl) c.volPoints s

theorem volumePhase_l_rhs {dim nL nF : ℕ} (c : Cell dim nL nF) (s : LocalScratch nL nF)
    (i : Fin nL) :
    (volumePhase c s).l_rhs i = s.l_rhs i +
      (c.volPoints.map fun p => p.u_phi i * p.rhs_value * p.JxW).sum :=
  foldl_comp_add volumeStep (fun s => s.l_rhs i) _ (fun _ _ => rfl) c.volPoints s

theorem volumePhase_lf {dim nL nF : ℕ} (c : Cell dim nL nF) (s : LocalScratch nL nF) :
    (volumePhase c s).lf_matrix = s.lf_matrix :=
  foldl_comp_frame volumeStep (fun s => s.lf_matrix) (fun _ _ => rfl) c.volPoints s

theorem volumePhase_fl {dim nL nF : ℕ} (c : Cell dim nL nF) (s : LocalScratch nL nF) :
    (volumePhase c s).fl_matrix = s.fl_matrix :=
  foldl_comp_frame volumeStep (fun s => s.fl_matrix) (fun _ _ => rfl) c.volPoints s

theorem volumePhase_ff {dim nL nF : ℕ} (c : Cell dim nL nF) (s : LocalScratch nL nF) :
    (volumePhase c s).ff_matrix = s.ff_matrix :=
  foldl_comp_frame volumeStep (fun s => s.ff_matrix) (fun _ _ => rfl) c.volPoints s

theorem volumePhase_f_rhs {dim nL nF : ℕ} (c : Cell dim nL nF) (s : LocalScratch nL nF) :
    (volumePhase c s).f_rhs = s.f_rhs :=
  foldl_comp_frame volumeStep (fun s => s.f_rhs) (fun _ _ => rfl) c.volPoints s

/-! ### Closed forms for one face's quadrature loop -/

theorem faceLoop_ll {dim nL nF : ℕ} (tr : Bool) (lam : Fin nF → ℚ)
    (f : Face dim nL nF) (s : LocalScratch nL nF) (ii jj : Fin nL) :
    (faceLoop tr lam s f).ll_matrix ii jj = s.ll_matrix ii jj +
      (f.points.map fun p =>
        if f.suppL ii && f.suppL jj then
          tauStab p.convection p.normal * p.u_phi ii * p.u_phi jj * p.JxW
        else 0).sum :=
  foldl_comp_add (faceStep tr lam f) (fun s => s.ll_matrix ii jj) _
    (fun _ _ => by cases tr <;> rfl) f.points s

theorem faceLoop_false_lf {dim nL nF : ℕ} (lam : Fin nF → ℚ)
    (f : Face dim nL nF) (s : LocalScratch nL nF) (ii : Fin nL) (jj : Fin nF) :
    (faceLoop false lam s f).lf_matrix ii jj = s.lf_matrix ii jj +
      (f.points.map fun p =>
        if f.suppL ii && f.suppF jj then
          (dot (p.q_phi ii) p.normal
            + (dot p.convection p.normal - tauStab p.convection p.normal) * p.u_phi ii)
            * p.tr_phi jj * p.JxW
        else 0).sum :=
  foldl_comp_add (faceStep false lam f) (fun s => s.lf_matrix ii jj) _
    (fun _ _ => rfl) f.points s

theorem faceLoop_false_fl {dim nL nF : ℕ} (lam : Fin nF → ℚ)
    (f : Face dim nL nF) (s : LocalScratch nL nF) (jj : Fin nF) (ii : Fin nL) :
    (faceLoop false lam s f).fl_matrix jj ii = s.fl_matrix jj ii -
      (f.points.map fun p =>
        if f.suppL ii && f.suppF jj then
          (dot (p.q_phi ii) p.normal + tauStab p.convection p.normal * p.u_phi ii)
            * p.tr_phi jj * p.JxW
        else 0).sum :=
  foldl_comp_sub (faceStep false lam f) (fun s => s.fl_matrix jj ii) _
    (fun _ _ => rfl) f.points s

theorem faceLoop_false_ff {dim nL nF : ℕ} (lam : Fin nF → ℚ)
    (f : Face dim nL nF) (s : LocalScratch nL nF) (ii jj : Fin nF) :
    (faceLoop false lam s f).ff_matrix ii jj = s.ff_matrix ii jj +
      (f.points.map fun p =>
        if f.suppF ii && f.suppF jj then
          (dot p.convection p.normal - tauStab p.convection p.normal)
            * p.tr_phi ii * p.tr_phi jj * p.JxW
        else 0).sum :=
  foldl_comp_add (faceStep false lam f) (fun s => s.ff_matrix ii jj) _
    (fun _ _ => rfl) f.points s

theorem faceLoop_false_f_rhs {dim nL nF : ℕ} (lam : Fin nF → ℚ)
    (f : Face dim nL nF) (s : LocalScratch nL nF) (ii : Fin nF) :
    (faceLoop false lam s f).f_rhs ii = s.f_rhs ii -
      (f.points.map fun p =>
        if (f.at_boundary && (f.boundary_indicator == neumannMarker)) && f.suppF ii then
          p.tr_phi ii * p.neumann_value * p.JxW
        else 0).sum :=
  foldl_comp_sub (faceStep false lam f) (fun s => s.f_rhs ii) _
    (fun _ _ => rfl) f.points s

theorem faceLoop_false_l_rhs {dim nL nF : ℕ} (lam : Fin nF → ℚ)
    (f : Face dim nL nF) (s : LocalScratch nL nF) :
    (faceLoop false lam s f).l_rhs = s.l_rhs :=
  foldl_comp_frame (faceStep false lam f) (fun s => s.l_rhs) (fun _ _ => rfl) f.points s

theorem faceLoop_true_l_rhs {dim nL nF : ℕ} (lam : Fin nF → ℚ)
    (f : Face dim nL nF) (s : LocalScratch nL nF) (ii : Fin nL) :
    (faceLoop true lam s f).l_rhs ii = s.l_rhs ii -
      (f.points.map fun p =>
        if f.suppL ii then
          (dot (p.q_phi ii) p.normal
            + p.u_phi ii * (dot p.convection p.normal - tauStab p.convection p.normal))
            * traceValues lam p * p.JxW
        else 0).sum :=
  foldl_comp_sub (faceStep true lam f) (fun s => s.l_rhs ii) _
    (fun _ _ => rfl) f.points s

theorem faceLoop_true_lf {dim nL nF : ℕ} (lam : Fin nF → ℚ)
    (f : Face dim nL nF) (s : LocalScratch nL nF) :
    (faceLoop true lam s f).lf_matrix = s.lf_matrix :=
  foldl_comp_frame (faceStep true lam f) (fun s => s.lf_matrix) (fun _ _ => rfl) f.points s

theorem faceLoop_true_fl {dim nL nF : ℕ} (lam : Fin nF → ℚ)
    (f : Face dim nL nF) (s : LocalScratch nL nF) :
    (faceLoop true lam s f).fl_matrix = s.fl_matrix :=
  foldl_comp_frame (faceStep true lam f) (fun s => s.fl_matrix) (fun _ _ => rfl) f.points s

theorem faceLoop_true_ff {dim nL nF : ℕ} (lam : Fin nF → ℚ)
    (f : Face dim nL nF) (s : LocalScratch nL nF) :
    (faceLoop true lam s f).ff_matrix = s.ff_matrix :=
  foldl_comp_frame (faceStep true lam f) (fun s => s.ff_matrix) (fun _ _ => rfl) f.points s

theorem faceLoop_true_f_rhs {dim nL nF : ℕ} (lam : Fin nF → ℚ)
    (f : Face dim nL nF) (s : LocalScratch nL nF) :
    (faceLoop true lam s f).f_rhs = s.f_rhs :=
  foldl_comp_frame (faceStep true lam f) (fun s => s.f_rhs) (fun _ _ => rfl) f.points s

/-! ### Closed forms for the loop over all faces -/

theorem facePhase_ll {dim nL nF : ℕ} (tr : Bool) (lam : Fin nF → ℚ)
    (c : Cell dim nL nF) (s : LocalScratch nL nF) (ii jj : Fin nL) :
    (facePhase tr lam c s).ll_matrix ii jj = s.ll_matrix ii jj +
      (c.faces.map fun f =>
        (f.points.map fun p =>
          if f.suppL ii && f.suppL jj then
            tauStab p.convection p.normal * p.u_phi ii * p.u_phi jj * p.JxW
          else 0).sum).sum :=
  foldl_comp_add (faceLoop tr lam) (fun s => s.ll_matrix ii jj) _
    (fun s f => faceLoop_ll tr lam f s ii jj) c.faces s

theorem facePhase_false_lf {dim nL nF : ℕ} (lam : Fin nF → ℚ)
    (c : Cell dim nL nF) (s : LocalScratch nL nF) (ii : Fin nL) (jj : Fin nF) :
    (facePhase false lam c s).lf_matrix ii jj = s.lf_matrix ii jj +
      (c.faces.map fun f =>
        (f.points.map fun p =>
          if f.suppL ii && f.suppF jj then
            (dot (p.q_phi ii) p.normal
              + (dot p.convection p.normal - tauStab p.convection p.normal) * p.u_phi ii)
              * p.tr_phi jj * p.JxW
          else 0).sum).sum :=
  foldl_comp_add (faceLoop false lam) (fun s => s.lf_matrix ii jj) _
    (fun s f => faceLoop_false_lf lam f s ii jj) c.faces s

theorem facePhase_false_fl {dim nL nF : ℕ} (lam : Fin nF → ℚ)
    (c : Cell dim nL nF) (s : LocalScratch nL nF) (jj : Fin nF) (ii : Fin nL) :
    (facePhase false lam c s).fl_matrix jj ii = s.fl_matrix jj ii -
      (c.faces.map fun f =>
        (f.points.map fun p =>
          if f.suppL ii && f.suppF jj then
            (dot (p.q_phi ii) p.normal + tauStab p.convection p.normal * p.u_phi ii)
              * p.tr_phi jj * p.JxW
          else 0).sum).sum :=
  foldl_comp_sub (faceLoop false lam) (fun s => s.fl_matrix jj ii) _
    (fun s f => faceLoop_false_fl lam f s jj ii) c.faces s

theorem facePhase_false_ff {dim nL nF : ℕ} (lam : Fin nF → ℚ)
    (c : Cell dim nL nF) (s : LocalScratch nL nF) (ii jj : Fin nF) :
    (facePhase false lam c s).ff_matrix ii jj = s.ff_matrix ii jj +
      (c.faces.map fun f =>
        (f.points.map fun p =>
          if f.suppF ii && f.suppF jj then
            (dot p.convection p.normal - tauStab p.convection p.normal)
              * p.tr_phi ii * p.tr_phi jj * p.JxW
          else 0).sum).sum :=
  foldl_comp_add (faceLoop false lam) (fun s => s.ff_matrix ii jj) _
    (fun s f => faceLoop_false_ff lam f s ii jj) c.faces s

theorem facePhase_false_f_rhs {dim nL nF : ℕ} (lam : Fin nF → ℚ)
    (c : Cell dim nL nF) (s : LocalScratch nL nF) (ii : Fin nF) :
    (facePhase false lam c s).f_rhs ii = s.f_rhs ii -
      (c.faces.map fun f =>
        (f.points.map fun p =>
          if (f.at_boundary && (f.boundary_indicator == neumannMarker)) && f.suppF ii then
            p.tr_phi ii * p.neumann_value * p.JxW
          else 0).sum).sum :=
  foldl_comp_sub (faceLoop false lam) (fun s => s.f_rhs ii) _
    (fun s f => faceLoop_false_f_rhs lam f s ii) c.faces s

theorem facePhase_false_l_rhs {dim nL nF : ℕ} (lam : Fin nF → ℚ)
    (c : Cell dim nL nF) (s : LocalScratch nL nF) :
    (facePhase false lam c s).l_rhs = s.l_rhs :=
  foldl_comp_frame (faceLoop false lam) (fun s => s.l_rhs)
    (fun s f => faceLoop_false_l_rhs lam f s) c.faces s

theorem facePhase_true_l_rhs {dim nL nF : ℕ} (lam : Fin nF → ℚ)
    (c : Cell dim nL nF) (s : LocalScratch nL nF) (ii : Fin nL) :
    (facePhase true lam c s).l_rhs ii = s.l_rhs ii -
      (c.faces.map fun f =>
        (f.points.map fun p =>
          if f.suppL ii then
            (dot (p.q_phi ii) p.normal
              + p.u_phi ii * (dot p.convection p.normal - tauStab p.convection p.normal))
              * traceValues lam p * p.JxW
          else 0).sum).sum :=
  foldl_comp_sub (faceLoop true lam) (fun s => s.l_rhs ii) _
    (fun s f => faceLoop_true_l_rhs lam f s ii) c.faces s

theorem facePhase_true_lf {dim nL nF : ℕ} (lam : Fin nF → ℚ)
    (c : Cell dim nL nF) (s : LocalScratch nL nF) :
    (facePhase true lam c s).lf_matrix = s.lf_matrix :=
  foldl_comp_frame (faceLoop true lam) (fun s => s.lf_matrix)
    (fun s f => faceLoop_true_lf lam f s) c.faces s

theorem facePhase_true_fl {dim nL nF : ℕ} (lam : Fin nF → ℚ)
    (c : Cell dim nL nF) (s : LocalScratch nL nF) :
    (facePhase true lam c s).fl_matrix = s.fl_matrix :=
  foldl_comp_frame (faceLoop true lam) (fun s => s.fl_matrix)
    (fun s f => faceLoop_true_fl lam f s) c.faces s

theorem facePhase_true_ff {dim nL nF : ℕ} (lam : Fin nF → ℚ)
    (c : Cell dim nL nF) (s : LocalScratch nL nF) :
    (facePhase true lam c s).ff_matrix = s.ff_matrix :=
  foldl_comp_frame (faceLoop true lam) (fun s => s.ff_matrix)
    (fun s f => faceLoop_true_ff lam f s) c.faces s

theorem facePhase_true_f_rhs {dim nL nF : ℕ} (lam : Fin nF → ℚ)
    (c : Cell dim nL nF) (s : LocalScratch nL nF) :
    (facePhase true lam c s).f_rhs = s.f_rhs :=
  foldl_comp_frame (faceLoop true lam) (fun s => s.f_rhs)
    (fun s f => faceLoop_true_f_rhs lam f s) c.faces s

/-! ### The reset step, componentwise -/

theorem resetScratch_ll {nL nF : ℕ} (tr : Bool) (s : LocalScratch nL nF)
    (i : Fin nL) (j : Fin nL) : (resetScratch tr s).ll_matrix i j = 0 := by
  cases tr <;> rfl

theorem resetScratch_l_rhs {nL nF : ℕ} (tr : Bool) (s : LocalScratch nL nF)
    (i : Fin nL) : (resetScratch tr s).l_rhs i = 0 := by
  cases tr <;> rfl

theorem resetScratch_false_lf {nL nF : ℕ} (s : LocalScratch nL nF)
    (i : Fin nL) (j : Fin nF) : (resetScratch false s).lf_matrix i j = 0 := rfl

theorem resetScratch_false_fl {nL nF : ℕ} (s : LocalScratch nL nF)
    (j : Fin nF) (i : Fin nL) : (resetScratch false s).fl_matrix j i = 0 := rfl

theorem resetScratch_false_ff {nL nF : ℕ} (s : LocalScratch nL nF)
    (i j : Fin nF) : (resetScratch false s).ff_matrix i j = 0 := rfl

theorem resetScratch_false_f_rhs {nL nF : ℕ} (s : LocalScratch nL nF)
    (i : Fin nF) : (resetScratch false s).f_rhs i = 0 := rfl

theorem resetScratch_true_lf {nL nF : ℕ} (s : LocalScratch nL nF) :
    (resetScratch true s).lf_matrix = s.lf_matrix := rfl

theorem resetScratch_true_fl {nL nF : ℕ} (s : LocalScratch nL nF) :
    (resetScratch true s).fl_matrix = s.fl_matrix := rfl

theorem resetScratch_true_ff {nL nF : ℕ} (s : LocalScratch nL nF) :
    (resetScratch true s).ff_matrix = s.ff_matrix := rfl

theorem resetScratch_true_f_rhs {nL nF : ℕ} (s : LocalScratch nL nF) :
    (resetScratch true s).f_rhs = s.f_rhs := rfl

/-! ### Closed forms for the full assembly of one element -/

theorem assembleLoops_ll {dim nL nF : ℕ} (tr : Bool) (lam : Fin nF → ℚ)
    (c : Cell dim nL nF) (s0 : LocalScratch nL nF) (ii jj : Fin nL) :
    (assembleLoops tr lam c s0).ll_matrix ii jj =
      (c.volPoints.map fun p =>
        (dot (p.q_phi ii) (p.q_phi jj) - p.q_phi_div ii * p.u_phi jj
          + p.u_phi ii * p.q_phi_div jj
          - dot (p.u_phi_grad ii) p.convection * p.u_phi jj) * p.JxW).sum +
      (c.faces.map fun f =>
        (f.points.map fun p =>
          if f.suppL ii && f.suppL jj then
            tauStab p.convection p.normal * p.u_phi ii * p.u_phi jj * p.JxW
          else 0).sum).sum := by
  unfold assembleLoops
  rw [facePhase_ll, volumePhase_ll, resetScratch_ll, zero_add]

theorem assembleLoops_false_l_rhs {dim nL nF : ℕ} (lam : Fin nF → ℚ)
    (c : Cell dim nL nF) (s0 : LocalScratch nL nF) (ii : Fin nL) :
    (assembleLoops false lam c s0).l_rhs ii =
      (c.volPoints.map fun p => p.u_phi ii * p.rhs_value * p.JxW).sum := by
  unfold assembleLoops
  rw [facePhase_false_l_rhs, volumePhase_l_rhs, resetScratch_l_rhs, zero_add]

theorem assembleLoops_false_lf {dim nL nF : ℕ} (lam : Fin nF → ℚ)
    (c : Cell dim nL nF) (s0 : LocalScratch nL nF) (ii : Fin nL) (jj : Fin nF) :
    (assembleLoops false lam c s0).lf_matrix ii jj =
      (c.faces.map fun f =>
        (f.points.map fun p =>
          if f.suppL ii && f.suppF jj then
            (dot (p.q_phi ii) p.normal
              + (dot p.convection p.normal - tauStab p.convection p.normal) * p.u_phi ii)
              * p.tr_phi jj * p.JxW
          else 0).sum).sum := by
  unfold assembleLoops
  rw [facePhase_false_lf, volumePhase_lf, resetScratch_false_lf, zero_add]

theorem assembleLoops_false_fl {dim nL nF : ℕ} (lam : Fin nF → ℚ)
    (c : Cell dim nL nF) (s0 : LocalScratch nL nF) (jj : Fin nF) (ii : Fin nL) :
    (assembleLoops false lam c s0).fl_matrix jj ii =
      -((c.faces.map fun f =>
        (f.points.map fun p =>
          if f.suppL ii && f.suppF jj then
            (dot (p.q_phi ii) p.normal + tauStab p.convection p.normal * p.u_phi ii)
              * p.tr_phi jj * p.JxW
          else 0).sum).sum) := by
  unfold assembleLoops
  rw [facePhase_false_fl, volumePhase_fl, resetScratch_false_fl, zero_sub]

theorem assembleLoops_false_ff {dim nL nF : ℕ} (lam : Fin nF → ℚ)
    (c : Cell dim nL nF) (s0 : LocalScratch nL nF) (ii jj : Fin nF) :
    (assembleLoops false lam c s0).ff_matrix ii jj =
      (c.faces.map fun f =>
        (f.points.map fun p =>
          if f.suppF ii && f.suppF jj then
            (dot p.convection p.normal - tauStab p.convection p.normal)
              * p.tr_phi ii * p.tr_phi jj * p.JxW
          else 0).sum).sum := by
  unfold assembleLoops
  rw [facePhase_false_ff, volumePhase_ff, resetScratch_false_ff, zero_add]

theorem assembleLoops_false_f_rhs {dim nL nF : ℕ} (lam : Fin nF → ℚ)
    (c : Cell dim nL nF) (s0 : LocalScratch nL nF) (ii : Fin nF) :
    (assembleLoops false lam c s0).f_rhs ii =
      -((c.faces.map fun f =>
        (f.points.map fun p =>
          if (f.at_boundary && (f.boundary_indicator == neumannMarker)) && f.suppF ii then
            p.tr_phi ii * p.neumann_value * p.JxW
          else 0).sum).sum) := by
  unfold assembleLoops
  rw [facePhase_false_f_rhs, volumePhase_f_rhs, resetScratch_false_f_rhs, zero_sub]

theorem assembleLoops_true_l_rhs {dim nL nF : ℕ} (lam : Fin nF → ℚ)
    (c : Cell dim nL nF) (s0 : LocalScratch nL nF) (ii : Fin nL) :
    (assembleLoops true lam c s0).l_rhs ii =
      (c.volPoints.map fun p => p.u_phi ii * p.rhs_value * p.JxW).sum -
      (c.faces.map fun f =>
        (f.points.map fun p =>
          if f.suppL ii then
            (dot (p.q_phi ii) p.normal
              + p.u_phi ii * (dot p.convection p.normal - tauStab p.convection p.normal))
              * traceValues lam p * p.JxW
          else 0).sum).sum := by
  unfold assembleLoops
  rw [facePhase_true_l_rhs, volumePhase_l_rhs, resetScratch_l_rhs, zero_add]

theorem assembleLoops_true_lf {dim nL nF : ℕ} (lam : Fin nF → ℚ)
    (c : Cell dim nL nF) (s0 : LocalScratch nL nF) :
    (assembleLoops true lam c s0).lf_matrix = s0.lf_matrix := by
  unfold assembleLoops
  rw [facePhase_true_lf, volumePhase_lf, resetScratch_true_lf]

theorem assembleLoops_true_fl {dim nL nF : ℕ} (lam : Fin nF → ℚ)
    (c : Cell dim nL nF) (s0 : LocalScratch nL nF) :
    (assembleLoops true lam c s0).fl_matrix = s0.fl_matrix := by
  unfold assembleLoops
  rw [facePhase_true_fl, volumePhase_fl, resetScratch_true_fl]

theorem assembleLoops_true_ff {dim nL nF : ℕ} (lam : Fin nF → ℚ)
    (c : Cell dim nL nF) (s0 : LocalScratch nL nF) :
    (assembleLoops true lam c s0).ff_matrix = s0.ff_matrix := by
  unfold assembleLoops
  rw [facePhase_true_ff, volumePhase_ff, resetScratch_true_ff]

theorem assembleLoops_true_f_rhs {dim nL nF : ℕ} (lam : Fin nF → ℚ)
    (c : Cell dim nL nF) (s0 : LocalScratch nL nF) :
    (assembleLoops true lam c s0).f_rhs = s0.f_rhs := by
  unfold assembleLoops
  rw [facePhase_true_f_rhs, volumePhase_f_rhs, resetScratch_true_f_rhs]

/-! ### The exact inverse -/

theorem matInv_eq_inv {n : ℕ} (A : Matrix (Fin n) (Fin n) ℚ) : matInv A = A⁻¹ := by
  unfold matInv
  rw [Matrix.inv_def, Ring.inverse_eq_inv]

theorem mul_matInv_of_det_ne_zero {n : ℕ} (A : Matrix (Fin n) (Fin n) ℚ)
    (h : A.det ≠ 0) : A * matInv A = 1 := by
  rw [matInv_eq_inv]
  exact Matrix.mul_nonsing_inv A (isUnit_iff_ne_zero.mpr h)

/-- Exchanging a finite sum over skeleton DOFs with a sum over a quadrature
point list. -/
theorem finsum_list_sum_swap {α : Type*} {n : ℕ} (l : List α) (g : α → Fin n → ℚ) :
    ∑ j, (l.map fun a => g a j).sum = (l.map fun a => ∑ j, g a j).sum := by
  induction l with
  | nil => simp
  | cons a t ih => simp [List.map_cons, List.sum_cons, Finset.sum_add_distrib, ih]

/-! ### Claim theorems -/

/-- C1 (counterexample): on the synthetic element `c1Cell` (populated blocks
`LL = (1)`, `LF = (1)`, `FL = (-1)`, `FF = (-5)`), the condensed local
matrix handed to global assembly does NOT equal the Schur complement
`FF − FL·LL⁻¹·LF` of the fully populated local blocks: the code produces
`-6 = FF + FL·LL⁻¹·LF` while the claimed formula gives `-4`. -/
theorem C1_counterexample :
    (assembleOneCellCondense (fun _ => 0) c1Cell (zeroScratch 1 1)).cell_matrix 0 0 ≠
      ((assembleLoops false (fun _ => 0) c1Cell (zeroScratch 1 1)).ff_matrix
        - (assembleLoops false (fun _ => 0) c1Cell (zeroScratch 1 1)).fl_matrix
          * matInv (assembleLoops false (fun _ => 0) c1Cell (zeroScratch 1 1)).ll_matrix
          * (assembleLoops false (fun _ => 0) c1Cell (zeroScratch 1 1)).lf_matrix) 0 0 := by
  have hll : (assembleLoops false (fun _ => 0) c1Cell (zeroScratch 1 1)).ll_matrix
      = Matrix.of fun _ _ => (1 : ℚ) := by
    ext i j; fin_cases i; fin_cases j
    rw [assembleLoops_ll]
    norm_num [c1Cell, c1Face, c1VolPoint, c1FacePoint, dot, tauStab, tau_stab_diffusion,
      Matrix.of_apply, Fin.sum_univ_one]
  have hlf : (assembleLoops false (fun _ => 0) c1Cell (zeroScratch 1 1)).lf_matrix
      = Matrix.of fun _ _ => (1 : ℚ) := by
    ext i j; fin_cases i; fin_cases j
    rw [assembleLoops_false_lf]
    norm_num [c1Cell, c1Face, c1FacePoint, dot, tauStab, tau_stab_diffusion,
      Matrix.of_apply, Fin.sum_univ_one]
  have hfl : (assembleLoops false (fun _ => 0) c1Cell (zeroScratch 1 1)).fl_matrix
      = Matrix.of fun _ _ => (-1 : ℚ) := by
    ext i j; fin_cases i; fin_cases j
    rw [assembleLoops_false_fl]
    norm_num [c1Cell, c1Face, c1FacePoint, dot, tauStab, tau_stab_diffusion,
      Matrix.of_apply, Fin.sum_univ_one]
  have hff : (assembleLoops false (fun _ => 0) c1Cell (zeroScratch 1 1)).ff_matrix
      = Matrix.of fun _ _ => (-5 : ℚ) := by
    ext i j; fin_cases i; fin_cases j
    rw [assembleLoops_false_ff]
    norm_num [c1Cell, c1Face, c1FacePoint, dot, tauStab, tau_stab_diffusion,
      Matrix.of_apply, Fin.sum_univ_one]
  have hinv : matInv (Matrix.of fun (_ _ : Fin 1) => (1 : ℚ))
      = Matrix.of fun (_ _ : Fin 1) => (1 : ℚ) := by
    ext i j; fin_cases i; fin_cases j
    simp [matInv, Matrix.det_fin_one, Matrix.adjugate_fin_one, Matrix.smul_apply,
      Matrix.of_apply, Matrix.one_apply]
  have hL : (assembleOneCellCondense (fun _ => 0) c1Cell (zeroScratch 1 1)).cell_matrix 0 0
      = -6 := by
    simp only [assembleOneCellCondense, condenseScratch]
    rw [hll, hlf, hfl, hff, hinv]
    norm_num [Matrix.add_apply, Matrix.mul_apply, Matrix.of_apply, Fin.sum_univ_one]
  have hR : ((assembleLoops false (fun _ => 0) c1Cell (zeroScratch 1 1)).ff_matrix
        - (assembleLoops false (fun _ => 0) c1Cell (zeroScratch 1 1)).fl_matrix
          * matInv (assembleLoops false (fun _ => 0) c1Cell (zeroScratch 1 1)).ll_matrix
          * (assembleLoops false (fun _ => 0) c1Cell (zeroScratch 1 1)).lf_matrix) 0 0
      = -4 := by
    rw [hll, hlf, hfl, hff, hinv]
    norm_num [Matrix.sub_apply, Matrix.mul_apply, Matrix.of_apply, Fin.sum_univ_one]
  rw [hL, hR]
  norm_num

/-- C1 (amended): on the pre-solve pass the condensed local matrix handed to
global assembly equals `FF + FL·LL⁻¹·LF` of the fully populated local
blocks, and the condensed right-hand side equals `f_rhs + FL·LL⁻¹·l_rhs`,
where `LL⁻¹` is the exact dense inverse of `LL`.  Because the assembly loops
accumulate `fl_matrix` with `-=`, this is exactly the Schur complement
`FF − (−FL)·LL⁻¹·LF` with respect to the negated coupling block (second
conjunct). -/
theorem C1_condensation_amended {dim nL nF : ℕ} (lam : Fin nF → ℚ)
    (c : Cell dim nL nF) (s0 : LocalScratch nL nF) :
    ((assembleOneCellCondense lam c s0).cell_matrix =
      (assembleLoops false lam c s0).ff_matrix +
        (assembleLoops false lam c s0).fl_matrix
          * matInv (assembleLoops false lam c s0).ll_matrix
          * (assembleLoops false lam c s0).lf_matrix) ∧
    ((assembleOneCellCondense lam c s0).cell_matrix =
      (assembleLoops false lam c s0).ff_matrix -
        (-(assembleLoops false lam c s0).fl_matrix)
          * matInv (assembleLoops false lam c s0).ll_matrix
          * (assembleLoops false lam c s0).lf_matrix) ∧
    ((assembleOneCellCondense lam c s0).cell_vector = fun i =>
      (assembleLoops false lam c s0).f_rhs i +
        Matrix.mulVec ((assembleLoops false lam c s0).fl_matrix
          * matInv (assembleLoops false lam c s0).ll_matrix)
          (assembleLoops false lam c s0).l_rhs i) := by
  refine ⟨rfl, ?_, rfl⟩
  rw [Matrix.neg_mul, Matrix.neg_mul, sub_neg_eq_add]
  rfl

/-- C3: for every element and every pass, after the interior quadrature loop
the (zero-initialized) interior-interior block holds exactly
`LL[i,j] = Σ_q (q_i·q_j − (div q_i) u_j + u_i (div q_j) −
(∇u_i·convection) u_j)·weight`, and the local right-hand side holds
`l_rhs[i] = Σ_q u_i·source·weight`. -/
theorem C3_volume_contributions {dim nL nF : ℕ} (tr : Bool) (c : Cell dim nL nF)
    (s0 : LocalScratch nL nF) :
    (∀ i j, (volumePhase c (resetScratch tr s0)).ll_matrix i j =
      (c.volPoints.map fun p =>
        (dot (p.q_phi i) (p.q_phi j) - p.q_phi_div i * p.u_phi j
          + p.u_phi i * p.q_phi_div j
          - dot (p.u_phi_grad i) p.convection * p.u_phi j) * p.JxW).sum) ∧
    (∀ i, (volumePhase c (resetScratch tr s0)).l_rhs i =
      (c.volPoints.map fun p => p.u_phi i * p.rhs_value * p.JxW).sum) := by
  constructor
  · intro i j
    rw [volumePhase_ll, resetScratch_ll, zero_add]
  · intro i
    rw [volumePhase_l_rhs, resetScratch_l_rhs, zero_add]

/-- C4: the stabilization parameter is computed as
`τ = tau_stab_diffusion + |convection·normal|` with `tau_stab_diffusion` a
fixed positive constant, and for every convection vector and every normal
vector the resulting τ is strictly positive. -/
theorem C4_stabilization_positive :
    0 < tau_stab_diffusion ∧
    (∀ (dim : ℕ) (convection normal : Fin dim → ℚ),
      tauStab convection normal = tau_stab_diffusion + |dot convection normal| ∧
      0 < tauStab convection normal) := by
  refine ⟨by norm_num [tau_stab_diffusion], fun dim convection normal => ⟨rfl, ?_⟩⟩
  have h := abs_nonneg (dot convection normal)
  unfold tauStab tau_stab_diffusion
  linarith

/-- Congruence for mapped lists, used to split face-level guards. -/
theorem list_map_congr_mem {α β : Type*} (l : List α) (f g : α → β)
    (h : ∀ a ∈ l, f a = g a) : l.map f = l.map g := by
  induction l with
  | nil => rfl
  | cons a t ih =>
    rw [List.map_cons, List.map_cons, h a (List.mem_cons_self a t),
      ih fun b hb => h b (List.mem_cons_of_mem a hb)]

/-- C7: on the trace-reconstruction pass the assembler leaves the
skeleton-skeleton block `ff_matrix` and the skeleton right-hand side `f_rhs`
untouched, `copy_local_to_global` leaves the global system unchanged for any
external distribution primitive, and instead the already-solved skeleton
trace values are folded directly into `l_rhs` face by face. -/
theorem C7_trace_pass_frame {dim nL nF : ℕ} (c : Cell dim nL nF)
    (lam : Fin nF → ℚ) (s0 : LocalScratch nL nF)
    (distribute : PerTaskData nF → GlobalSystem → GlobalSystem)
    (d : PerTaskData nF) (g : GlobalSystem) :
    ((assembleLoops true lam c s0).ff_matrix = s0.ff_matrix) ∧
    ((assembleLoops true lam c s0).f_rhs = s0.f_rhs) ∧
    (copyLocalToGlobal distribute { d with trace_reconstruct := true } g = g) ∧
    (∀ i, (assembleLoops true lam c s0).l_rhs i =
      (c.volPoints.map fun p => p.u_phi i * p.rhs_value * p.JxW).sum -
      (c.faces.map fun f =>
        (f.points.map fun p =>
          if f.suppL i then
            (dot (p.q_phi i) p.normal
              + p.u_phi i * (dot p.convection p.normal - tauStab p.convection p.normal))
              * traceValues lam p * p.JxW
          else 0).sum).sum) := by
  refine ⟨assembleLoops_true_ff lam c s0, assembleLoops_true_f_rhs lam c s0, ?_,
    fun i => assembleLoops_true_l_rhs lam c s0 i⟩
  simp [copyLocalToGlobal]

/-- C10: `solve` clears the global skeleton matrix and reduces the sparsity
pattern to an empty size after the linear solve and before the
trace-reconstruction pass; the state handed to reconstruction carries the
constraint-distributed trace solution, and the interior solution it produces
is `reconstructPass` applied to that trace vector alone, for any external
solver and distribution primitive. -/
theorem C10_solve_clears_global_state {dim nL nF N : ℕ}
    (gmres : (ℕ → ℕ → ℚ) → (Fin N → ℚ) → Fin N → ℚ)
    (distribute : (Fin N → ℚ) → Fin N → ℚ)
    (cells : List (SolveCell dim nL nF N))
    (st : SolveState N nL) :
    ((solveStep gmres distribute cells st).matrix_rows = 0) ∧
    (∀ i j, (solveStep gmres distribute cells st).matrix i j = 0) ∧
    ((solveStep gmres distribute cells st).sparsity_rows = 0) ∧
    ((solveStep gmres distribute cells st).sparsity_cols = 0) ∧
    ((solveStep gmres distribute cells st).solution =
      distribute (gmres st.matrix st.system_rhs)) ∧
    ((solveStep gmres distribute cells st).solution_local =
      reconstructPass cells (distribute (gmres st.matrix st.system_rhs))) ∧
    ((solveStep gmres distribute cells st).solution_local =
      reconstructPass cells (solveStep gmres distribute cells st).solution) :=
  ⟨rfl, fun _ _ => rfl, rfl, rfl, rfl, rfl, rfl⟩

/-- C8 (counterexample): the boundary marker `2` differs from the hardcoded
Neumann marker, yet it receives no Dirichlet treatment (it is not registered
in `setup_system`'s boundary-function map) — contradicting "every face with
any other marker receives Dirichlet treatment".  Moreover on `c8Cell`, whose
only face is a boundary face with marker `2` and nonzero trace and Neumann
data, the skeleton right-hand side also receives no Neumann injection. -/
theorem C8_counterexample :
    (2 : ℕ) ≠ neumannMarker ∧ dirichletTreated 2 = false ∧
    (∀ i, (assembleLoops false (fun _ => 0) c8Cell (zeroScratch 1 1)).f_rhs i = 0) := by
  refine ⟨by norm_num [neumannMarker], by decide, fun i => ?_⟩
  rw [assembleLoops_false_f_rhs]
  fin_cases i
  norm_num [c8Cell, c8Face, c8FacePoint, neumannMarker]

/-- C8 (amended): exactly one hardcoded boundary marker (`neumannMarker = 1`)
is treated as Neumann: the `f_rhs` injection accumulates, face by face,
exactly the terms guarded by "the face is on the domain boundary and carries
`neumannMarker`", so a face with any other marker (or an interior face)
contributes nothing.  Dirichlet treatment (registration of the projected
boundary-value function) is applied to exactly the single hardcoded marker
`0`; markers other than `0` and `1` receive neither treatment. -/
theorem C8_boundary_marker_amended {dim nL nF : ℕ} (lam : Fin nF → ℚ)
    (c : Cell dim nL nF) (s0 : LocalScratch nL nF) :
    (neumannMarker = 1) ∧
    (∀ i, (assembleLoops false lam c s0).f_rhs i =
      -((c.faces.map fun f =>
        if f.at_boundary && (f.boundary_indicator == neumannMarker) then
          (f.points.map fun p =>
            if f.suppF i then p.tr_phi i * p.neumann_value * p.JxW else 0).sum
        else 0).sum)) ∧
    (∀ m : ℕ, dirichletTreated m = true ↔ m = 0) := by
  refine ⟨rfl, fun i => ?_, fun m => ?_⟩
  · rw [assembleLoops_false_f_rhs]
    congr 1
    apply congrArg
    apply list_map_congr_mem
    intro f _
    by_cases hA : (f.at_boundary && (f.boundary_indicator == neumannMarker)) = true
    · simp only [hA, Bool.true_and, if_true]
    · have hA' : (f.at_boundary && (f.boundary_indicator == neumannMarker)) = false := by
        simpa using hA
      simp [hA']
  · simp [dirichletTreated, dirichletMarkers]

/-- Pulling a linear combination of trace coefficients through nested
quadrature sums. -/
theorem sum_mul_list_swap {β : Type*} {n : ℕ} (P : List β) (G : β → Fin n → ℚ)
    (lam : Fin n → ℚ) :
    (∑ j, (P.map fun p => G p j).sum * lam j)
      = (P.map fun p => ∑ j, G p j * lam j).sum := by
  rw [Finset.sum_congr rfl fun j _ =>
    (List.sum_map_mul_right P (fun p => G p j) (lam j)).symm]
  exact finsum_list_sum_swap P fun p j => G p j * lam j

/-- C2: on the trace-reconstruction pass the interior solution written at an
element's interior DOFs is `LL⁻¹·l_rhs` with the `LL⁻¹` recomputed for that
element, and for any given trace vector this equals the interior unknowns
obtained by directly solving the uncondensed local system
`LL u + LF λ = l_rhs` with the trace values substituted as boundary data
(`specDirectSolve`).  The hypothesis states that a skeleton basis function
with no support on a face vanishes at that face's quadrature points, which is
what the `fe_support_on_face` lists encode. -/
theorem C2_reconstruction_roundtrip {dim nL nF : ℕ} (c : Cell dim nL nF)
    (lam : Fin nF → ℚ) (s0 : LocalScratch nL nF)
    (hsupp : ∀ f ∈ c.faces, ∀ p ∈ f.points, ∀ j, f.suppF j = false → p.tr_phi j = 0) :
    assembleOneCellReconstruct lam c s0 = specDirectSolve c lam := by
  have key : ∀ (i : Fin nL), ∀ f ∈ c.faces, ∀ p ∈ f.points,
      (∑ j, (if f.suppL i && f.suppF j then
          (dot (p.q_phi i) p.normal
            + (dot p.convection p.normal - tauStab p.convection p.normal) * p.u_phi i)
            * p.tr_phi j * p.JxW
        else 0) * lam j)
      = (if f.suppL i then
          (dot (p.q_phi i) p.normal
            + p.u_phi i * (dot p.convection p.normal - tauStab p.convection p.normal))
            * traceValues lam p * p.JxW
        else 0) := by
    intro i f hf p hp
    by_cases hL : f.suppL i = true
    · simp only [hL, Bool.true_and, if_true]
      rw [traceValues, Finset.mul_sum, Finset.sum_mul]
      apply Finset.sum_congr rfl
      intro j _
      by_cases hF : f.suppF j = true
      · simp only [hF, if_true]
        ring
      · have h0 : p.tr_phi j = 0 := hsupp f hf p hp j (by simpa using hF)
        simp [hF, h0]
    · simp [hL]
  have hll : (assembleLoops true lam c s0).ll_matrix
      = (assembleLoops false (fun _ => 0) c (zeroScratch nL nF)).ll_matrix := by
    ext ii jj
    rw [assembleLoops_ll, assembleLoops_ll]
  have hrhs : (assembleLoops true lam c s0).l_rhs = fun i =>
      (assembleLoops false (fun _ => 0) c (zeroScratch nL nF)).l_rhs i
        - Matrix.mulVec
            (assembleLoops false (fun _ => 0) c (zeroScratch nL nF)).lf_matrix lam i := by
    funext i
    rw [assembleLoops_true_l_rhs, assembleLoops_false_l_rhs, sub_right_inj]
    have hmv : Matrix.mulVec
        (assembleLoops false (fun _ => 0) c (zeroScratch nL nF)).lf_matrix lam i
        = ∑ j, (assembleLoops false (fun _ => 0) c (zeroScratch nL nF)).lf_matrix i j
            * lam j := rfl
    rw [hmv]
    simp only [assembleLoops_false_lf]
    rw [sum_mul_list_swap]
    simp only [sum_mul_list_swap]
    symm
    apply congrArg List.sum
    apply list_map_congr_mem
    intro f hf
    apply congrArg List.sum
    apply list_map_congr_mem
    intro p hp
    exact key i f hf p hp
  show Matrix.mulVec (matInv (assembleLoops true lam c s0).ll_matrix)
      (assembleLoops true lam c s0).l_rhs
    = Matrix.mulVec
        (matInv (assembleLoops false (fun _ => 0) c (zeroScratch nL nF)).ll_matrix)
        (fun i => (assembleLoops false (fun _ => 0) c (zeroScratch nL nF)).l_rhs i
          - Matrix.mulVec
              (assembleLoops false (fun _ => 0) c (zeroScratch nL nF)).lf_matrix lam i)
  rw [hll, hrhs]

/-- C2 (witness): the reconstruction round-trip theorem instantiated on the
synthetic element `c2Cell` with the trace vector `c2Lam`. -/
theorem C2_reconstruction_roundtrip_witness :
    (∀ f ∈ c2Cell.faces, ∀ p ∈ f.points, ∀ j, f.suppF j = false → p.tr_phi j = 0) ∧
    assembleOneCellReconstruct c2Lam c2Cell (zeroScratch 1 1)
      = specDirectSolve c2Cell c2Lam :=
  ⟨by decide, C2_reconstruction_roundtrip c2Cell c2Lam (zeroScratch 1 1) (by decide)⟩

/-- The post-processing system is inverted exactly: multiplying the cell
matrix by the computed solution reproduces the right-hand side whenever the
matrix is invertible. -/
theorem postMatrix_mulVec_sol {dim nPost : ℕ} (pts : List (PostPoint dim nPost))
    (hdet : (postCellMatrix pts).det ≠ 0) :
    Matrix.mulVec (postCellMatrix pts) (postCellSol pts) = postCellRhs pts := by
  unfold postCellSol
  rw [Matrix.mulVec_mulVec, mul_matInv_of_det_ne_zero _ hdet, Matrix.one_mulVec]

/-- C5: per element the post-processing system over the recovery space has,
for every row `i > 0` and column `j`, the entry `Σ_q ∇φ_i·∇φ_j · JxW` with
right-hand side `−Σ_q ∇φ_i·(reconstructed gradient) · JxW`, while row `0`
holds the recovery-space mass-matrix row `Σ_q φ_j · JxW` with right-hand
side `Σ_q (reconstructed primal value) · JxW`; the system is inverted
exactly (multiplying back reproduces the right-hand side) and the result is
the vector written into the recovery field. -/
theorem C5_postprocess_system {dim nPost : ℕ} (pts : List (PostPoint dim nPost))
    (hdet : (postCellMatrix pts).det ≠ 0) :
    (∀ (i j : Fin nPost), (i : ℕ) ≠ 0 → postCellMatrix pts i j =
      (pts.map fun p => dot (p.shape_grad i) (p.shape_grad j) * p.JxW).sum) ∧
    (∀ (i : Fin nPost), (i : ℕ) ≠ 0 → postCellRhs pts i =
      -((pts.map fun p => dot (p.shape_grad i) p.u_gradient * p.JxW).sum)) ∧
    (∀ (i j : Fin nPost), (i : ℕ) = 0 → postCellMatrix pts i j =
      (pts.map fun p => p.shape_value j * p.JxW).sum) ∧
    (∀ (i : Fin nPost), (i : ℕ) = 0 → postCellRhs pts i =
      (pts.map fun p => p.u_value * p.JxW).sum) ∧
    Matrix.mulVec (postCellMatrix pts) (postCellSol pts) = postCellRhs pts := by
  refine ⟨?_, ?_, ?_, ?_, postMatrix_mulVec_sol pts hdet⟩
  · intro i j hi
    simp [postCellMatrix, Matrix.of_apply, hi]
  · intro i hi
    simp [postCellRhs, hi]
  · intro i j hi
    simp [postCellMatrix, Matrix.of_apply, hi]
  · intro i hi
    simp [postCellRhs, hi]

/-- C5 (witness): the post-processing theorem instantiated on the synthetic
quadrature data `c5Points`, whose cell matrix is the 2×2 identity. -/
theorem C5_postprocess_system_witness :
    ((postCellMatrix c5Points).det ≠ 0) ∧
    ((∀ (i j : Fin 2), (i : ℕ) ≠ 0 → postCellMatrix c5Points i j =
      (c5Points.map fun p => dot (p.shape_grad i) (p.shape_grad j) * p.JxW).sum) ∧
    (∀ (i : Fin 2), (i : ℕ) ≠ 0 → postCellRhs c5Points i =
      -((c5Points.map fun p => dot (p.shape_grad i) p.u_gradient * p.JxW).sum)) ∧
    (∀ (i j : Fin 2), (i : ℕ) = 0 → postCellMatrix c5Points i j =
      (c5Points.map fun p => p.shape_value j * p.JxW).sum) ∧
    (∀ (i : Fin 2), (i : ℕ) = 0 → postCellRhs c5Points i =
      (c5Points.map fun p => p.u_value * p.JxW).sum) ∧
    Matrix.mulVec (postCellMatrix c5Points) (postCellSol c5Points)
      = postCellRhs c5Points) := by
  have hdet : (postCellMatrix c5Points).det ≠ 0 := by
    norm_num [postCellMatrix, Matrix.det_fin_two, Matrix.of_apply, c5Points, dot,
      Fin.sum_univ_one]
  exact ⟨hdet, C5_postprocess_system c5Points hdet⟩

/-- C6: after post-processing, the quadrature integral of the recovery
field over the element equals the quadrature integral of the interior primal
field over the same element, exactly (the row-0 mass-row replacement
enforces this). -/
theorem C6_conservation {dim nPost : ℕ} (pts : List (PostPoint dim nPost))
    (hdet : (postCellMatrix pts).det ≠ 0) (i0 : Fin nPost) (hi0 : (i0 : ℕ) = 0) :
    (pts.map fun p => (∑ j, postCellSol pts j * p.shape_value j) * p.JxW).sum
      = (pts.map fun p => p.u_value * p.JxW).sum := by
  have h1 : ∀ p : PostPoint dim nPost,
      (∑ j, postCellSol pts j * p.shape_value j) * p.JxW
        = ∑ j, postCellSol pts j * (p.shape_value j * p.JxW) := by
    intro p
    rw [Finset.sum_mul]
    exact Finset.sum_congr rfl fun j _ => mul_assoc _ _ _
  rw [list_map_congr_mem pts _ _ fun p _ => h1 p, ← finsum_list_sum_swap]
  rw [Finset.sum_congr rfl fun j _ =>
    List.sum_map_mul_left pts (fun p => p.shape_value j * p.JxW) (postCellSol pts j)]
  have hrow : ∀ j, (pts.map fun p => p.shape_value j * p.JxW).sum
      = postCellMatrix pts i0 j := by
    intro j
    simp [postCellMatrix, Matrix.of_apply, hi0]
  have hmv : (∑ j, postCellSol pts j * postCellMatrix pts i0 j)
      = Matrix.mulVec (postCellMatrix pts) (postCellSol pts) i0 :=
    Finset.sum_congr rfl fun j _ => mul_comm _ _
  rw [Finset.sum_congr rfl fun j _ => congrArg (postCellSol pts j * ·) (hrow j),
    hmv, postMatrix_mulVec_sol pts hdet]
  simp [postCellRhs, hi0]

/-- C6 (witness): conservation on the synthetic data `c6Points`. -/
theorem C6_conservation_witness :
    ((postCellMatrix c6Points).det ≠ 0) ∧
    (c6Points.map fun p => (∑ j, postCellSol c6Points j * p.shape_value j) * p.JxW).sum
      = (c6Points.map fun p => p.u_value * p.JxW).sum := by
  have hdet : (postCellMatrix c6Points).det ≠ 0 := by
    norm_num [postCellMatrix, Matrix.det_fin_one, Matrix.of_apply, c6Points]
  exact ⟨hdet, C6_conservation c6Points hdet 0 rfl⟩

/-- C9 (counterexample): in the unsupported spatial dimension 4 the assembly
model completes without error on zero active elements — a doubly invalid
state (unsupported dimension and empty mesh) — and also on a cell with no
quadrature points, while the first quadrature point actually processed
aborts with the `ExcNotImplemented` assertion: the invalid-dimension check
happens during assembly, inside `ConvectionVelocity::value`, not before
assembly begins, and zero active elements is never checked. -/
theorem C9_counterexample :
    (assembleSystemConv ([] : List (List (RawVolPoint 4 1))) (zeroScratch 1 1)
        = .ok (zeroScratch 1 1)) ∧
    (assembleSystemConv ([[]] : List (List (RawVolPoint 4 1))) (zeroScratch 1 1)
        = .ok (resetScratch false (zeroScratch 1 1))) ∧
    (assembleSystemConv [[c9Point]] (zeroScratch 1 1)
        = .error "ExcNotImplemented") :=
  ⟨rfl, rfl, rfl⟩

/-- C9 (amended): an unsupported spatial dimension is detected as a fatal
assertion failure during assembly — raised by `ConvectionVelocity::value`
at the first interior quadrature point processed — rather than by a check
performed before assembly begins; a mesh with zero active elements is not
detected at all: assembly over zero elements completes without error. -/
theorem C9_dimension_check_amended {dim nL nF : ℕ}
    (h1 : dim ≠ 1) (h2 : dim ≠ 2) (h3 : dim ≠ 3)
    (s0 : LocalScratch nL nF) :
    (∀ p : Fin dim → ℚ, convectionVelocityValue p = .error "ExcNotImplemented") ∧
    (assembleSystemConv ([] : List (List (RawVolPoint dim nL))) s0 = .ok s0) ∧
    (∀ (pt : RawVolPoint dim nL) (rest : List (RawVolPoint dim nL))
        (cells : List (List (RawVolPoint dim nL))),
      assembleSystemConv ((pt :: rest) :: cells) s0 = .error "ExcNotImplemented") := by
  have hconv : ∀ p : Fin dim → ℚ,
      convectionVelocityValue p = .error "ExcNotImplemented" := by
    intro p
    unfold convectionVelocityValue
    rw [dif_neg h1, dif_neg h2, dif_neg h3]
  refine ⟨hconv, rfl, ?_⟩
  intro pt rest cells
  simp [assembleSystemConv, assembleCellVolumeConv, volumeStepConv, hconv, Bind.bind,
    Except.bind]

/-- C9 (witness): the amended statement instantiated in dimension 4. -/
theorem C9_dimension_check_amended_witness :
    (∀ p : Fin 4 → ℚ, convectionVelocityValue p = .error "ExcNotImplemented") ∧
    (assembleSystemConv ([] : List (List (RawVolPoint 4 1))) (zeroScratch 1 1)
        = .ok (zeroScratch 1 1)) ∧
    (∀ (pt : RawVolPoint 4 1) (rest : List (RawVolPoint 4 1))
        (cells : List (List (RawVolPoint 4 1))),
      assembleSystemConv ((pt :: rest) :: cells) (zeroScratch 1 1)
        = .error "ExcNotImplemented") :=
  C9_dimension_check_amended (by decide) (by decide) (by decide) (zeroScratch 1 1)

end Step51
